import Mathlib

/-!
Shallow embedding of `pkg/hashTable/hashTable.go` from JeanGrijp/go-datastructures.

The Go package implements a separate-chaining hash table with string keys and
`any` values.  We embed it as follows:

* a Go `string` key is its byte sequence, `Key := List Nat`;
* the value type is a type parameter `V` (Go's `any`);
* `buckets  [][]KeyValuePair` becomes `List (List (KeyValuePair V))`;
* Go `int` fields (`size`, `capacity`) become `Int`;
* Go slice indexing `ht.buckets[index]` panics when out of range, so the
  operations that index a bucket return `Option`: `none` models the panic.
  (Under the well-formedness invariant proved below the index is always in
  range, so the operations never actually fail.)
* `float64` arithmetic in `LoadFactor` is modelled by exact rationals `ℚ`.
-/

set_option linter.unusedVariables false

namespace GoDS

/-- A Go string key, as its sequence of bytes. -/
abbrev Key := List Nat

/-- `KeyValuePair` from hashTable.go: a single key-value pair stored in a bucket. -/
structure KeyValuePair (V : Type) where
  key : Key
  value : V
  deriving Repr, DecidableEq

/-- `HashTable` from hashTable.go: an array of buckets, each a slice of pairs,
plus the current entry count and the fixed bucket count. -/
structure HashTable (V : Type) where
  buckets : List (List (KeyValuePair V))
  size : Int
  capacity : Int
  deriving Repr

/-- `New` from hashTable.go: if `capacity <= 0` it defaults to 16, then
allocates `capacity` empty buckets with size 0. -/
def New (V : Type) (capacity : Int) : HashTable V :=
  let c : Int := if capacity ≤ 0 then 16 else capacity
  { buckets := List.replicate c.toNat []
    size := 0
    capacity := c }

/-- One step of the FNV-1a loop performed by `hash/fnv`'s `Write`:
xor the next byte into the state, then multiply by the 32-bit FNV prime
16777619, modulo 2^32. -/
def fnv1aStep (h b : Nat) : Nat := ((h ^^^ b) * 16777619) % 4294967296

/-- `fnv.New32a` followed by `Write(key)` then `Sum32`: fold the FNV-1a step
over the key's bytes starting from the 32-bit offset basis 2166136261. -/
def fnv32a (key : Key) : Nat := key.foldl fnv1aStep 2166136261

/-- `hash` from hashTable.go: `int(hasher.Sum32()) % ht.capacity`.
`Sum32` is a `uint32`, so the converted `int` is the non-negative value of the
digest (Go `int` is 64-bit here); Go's `%` is the truncated remainder,
`Int.tmod`. -/
def HashTable.hash {V : Type} (ht : HashTable V) (key : Key) : Int :=
  Int.tmod (Int.ofNat (fnv32a key)) ht.capacity

/-- The bucket index used by `Put`/`Get`/`Delete`: the hash as a list index.
(`hash` is non-negative whenever it is in range, see `hash_nonneg`.) -/
def HashTable.idx {V : Type} (ht : HashTable V) (key : Key) : Nat :=
  (ht.hash key).toNat

/-- The scan-and-update loop inside `Put`, acting on one bucket: replace the
value of the first pair whose key matches (returning `false`), or append a
fresh pair at the end (returning `true`). -/
def putBucket {V : Type} (key : Key) (value : V) :
    List (KeyValuePair V) → List (KeyValuePair V) × Bool
  | [] => ([⟨key, value⟩], true)
  | p :: rest =>
    if p.key = key then
      (⟨p.key, value⟩ :: rest, false)
    else
      let r := putBucket key value rest
      (p :: r.1, r.2)

/-- `Put` from hashTable.go: hash the key, scan its bucket for the key,
update in place (returning `false`) or append and increment `size`
(returning `true`).  `none` models the panic of `ht.buckets[index]` when the
index is out of range. -/
def HashTable.Put {V : Type} (ht : HashTable V) (key : Key) (value : V) :
    Option (HashTable V × Bool) :=
  let index := ht.idx key
  match ht.buckets[index]? with
  | none => none
  | some bucket =>
    let r := putBucket key value bucket
    some ({ ht with
              buckets := ht.buckets.set index r.1
              size := if r.2 then ht.size + 1 else ht.size },
          r.2)

/-- The scan loop inside `Get`, acting on one bucket: the value of the first
pair whose key matches, if any.  `some v` stands for Go's `(v, true)` and
`none` for `(nil, false)`. -/
def getBucket {V : Type} (key : Key) : List (KeyValuePair V) → Option V
  | [] => none
  | p :: rest => if p.key = key then some p.value else getBucket key rest

/-- `Get` from hashTable.go: hash the key and scan its bucket.  The outer
`Option` models the bucket-indexing panic; the inner `Option V` is the Go
result pair, `some v` for `(v, true)` and `none` for `(nil, false)`. -/
def HashTable.Get {V : Type} (ht : HashTable V) (key : Key) : Option (Option V) :=
  (ht.buckets[ht.idx key]?).map (getBucket key)

/-- The scan-and-remove loop inside `Delete`, acting on one bucket: remove the
first pair whose key matches (`append(bucket[:i], bucket[i+1:]...)` keeps the
remaining entries in order), or `none` when the key is absent. -/
def deleteBucket {V : Type} (key : Key) :
    List (KeyValuePair V) → Option (List (KeyValuePair V))
  | [] => none
  | p :: rest =>
    if p.key = key then some rest
    else (deleteBucket key rest).map (p :: ·)

/-- `Delete` from hashTable.go: hash the key and scan its bucket; if found,
remove the pair and decrement `size`, returning `true`; otherwise return
`false` with no mutation.  The outer `none` models the indexing panic. -/
def HashTable.Delete {V : Type} (ht : HashTable V) (key : Key) :
    Option (HashTable V × Bool) :=
  let index := ht.idx key
  match ht.buckets[index]? with
  | none => none
  | some bucket =>
    match deleteBucket key bucket with
    | none => some (ht, false)
    | some bucket' =>
      some ({ ht with
                buckets := ht.buckets.set index bucket'
                size := ht.size - 1 },
            true)

/-- `Contains` from hashTable.go: `Get` with the value discarded. -/
def HashTable.Contains {V : Type} (ht : HashTable V) (key : Key) : Option Bool :=
  (ht.Get key).map Option.isSome

/-- `Size` from hashTable.go. -/
def HashTable.Size {V : Type} (ht : HashTable V) : Int := ht.size

/-- `IsEmpty` from hashTable.go: `ht.size == 0`. -/
def HashTable.IsEmpty {V : Type} (ht : HashTable V) : Bool := ht.size == 0

/-- `Clear` from hashTable.go: set every bucket to nil and reset `size` to 0.
The bucket array keeps its length. -/
def HashTable.Clear {V : Type} (ht : HashTable V) : HashTable V :=
  { ht with buckets := ht.buckets.map (fun _ => []), size := 0 }

/-- `Keys` from hashTable.go: all keys, bucket by bucket, in order. -/
def HashTable.Keys {V : Type} (ht : HashTable V) : List Key :=
  (ht.buckets.map (fun bucket => bucket.map (fun p => p.key))).flatten

/-- `Values` from hashTable.go: all values, bucket by bucket, in order. -/
def HashTable.Values {V : Type} (ht : HashTable V) : List V :=
  (ht.buckets.map (fun bucket => bucket.map (fun p => p.value))).flatten

/-- `GetPairs` from hashTable.go: all key-value pairs, bucket by bucket. -/
def HashTable.GetPairs {V : Type} (ht : HashTable V) : List (KeyValuePair V) :=
  ht.buckets.flatten

/-- `LoadFactor` from hashTable.go: `size / capacity` as a float, and 0 when
`capacity` is 0.  `float64` division is modelled by exact rational division. -/
def HashTable.LoadFactor {V : Type} (ht : HashTable V) : ℚ :=
  if ht.capacity = 0 then 0
  else (ht.size : ℚ) / (ht.capacity : ℚ)

/-- Sum of the lengths of all buckets. -/
def HashTable.sumBucketLens {V : Type} (ht : HashTable V) : Nat :=
  (ht.buckets.map List.length).sum

/-- The stores reachable from construction by the mutating operations.
The queries (`Get`, `Contains`, `Size`, `IsEmpty`, `Keys`, `Values`,
`GetPairs`, `LoadFactor`, …) are pure functions of the state,
so they do not appear as steps. -/
inductive Reachable {V : Type} : HashTable V → Prop
  | new (c : Int) : Reachable (New V c)
  | put {st st' : HashTable V} {k : Key} {v : V} {b : Bool}
      (hst : Reachable st) (hput : st.Put k v = some (st', b)) : Reachable st'
  | del {st st' : HashTable V} {k : Key} {b : Bool}
      (hst : Reachable st) (hdel : st.Delete k = some (st', b)) : Reachable st'
  | clear {st : HashTable V} (hst : Reachable st) : Reachable st.Clear

/-- The keys of a bucket, in order. -/
def bucketKeys {V : Type} (b : List (KeyValuePair V)) : List Key :=
  b.map (fun p => p.key)

/-- The bucket a key is routed to (empty when the index is out of range). -/
def HashTable.bucketOf {V : Type} (ht : HashTable V) (key : Key) :
    List (KeyValuePair V) :=
  ht.buckets.getD (ht.idx key) []

/-- Well-formedness: positive capacity and exactly `capacity` buckets.
Every store built by `New` satisfies this and every operation preserves it. -/
def Wf {V : Type} (ht : HashTable V) : Prop :=
  0 < ht.capacity ∧ ht.buckets.length = ht.capacity.toNat

/-- The full data-structure invariant: well-formedness, the `size` field agrees
with the actual entry count, every pair sits in the bucket its key hashes to,
and no bucket holds two pairs with the same key. -/
def Inv {V : Type} (ht : HashTable V) : Prop :=
  Wf ht ∧
  ht.size = (ht.sumBucketLens : Int) ∧
  (∀ i : Nat, ∀ p ∈ ht.buckets.getD i [], ht.idx p.key = i) ∧
  (∀ i : Nat, (bucketKeys (ht.buckets.getD i [])).Nodup)

theorem hash_nonneg {V : Type} (ht : HashTable V) (key : Key) :
    0 ≤ ht.hash key :=
  Int.tmod_nonneg _ (Int.ofNat_nonneg _)

theorem hash_lt {V : Type} (ht : HashTable V) (key : Key)
    (h : 0 < ht.capacity) : ht.hash key < ht.capacity :=
  Int.tmod_lt_of_pos _ h

theorem idx_lt_length {V : Type} {ht : HashTable V} (hwf : Wf ht) (key : Key) :
    ht.idx key < ht.buckets.length := by
  have h1 := hash_nonneg ht key
  have h2 := hash_lt ht key hwf.1
  have : (ht.hash key).toNat < ht.capacity.toNat := by omega
  simpa [HashTable.idx, hwf.2] using this

theorem getElem?_idx {V : Type} {ht : HashTable V} (hwf : Wf ht) (key : Key) :
    ht.buckets[ht.idx key]? = some (ht.bucketOf key) := by
  have h := idx_lt_length hwf key
  simp [HashTable.bucketOf, List.getD_eq_getElem?_getD, List.getElem?_eq_getElem h]

/-- Under well-formedness, `Put` reduces to the bucket-level update. -/
theorem Put_eq {V : Type} {ht : HashTable V} (hwf : Wf ht) (key : Key) (v : V) :
    ht.Put key v =
      some ({ ht with
                buckets := ht.buckets.set (ht.idx key)
                  (putBucket key v (ht.bucketOf key)).1
                size := if (putBucket key v (ht.bucketOf key)).2 then
                          ht.size + 1 else ht.size },
            (putBucket key v (ht.bucketOf key)).2) := by
  simp [HashTable.Put, getElem?_idx hwf key]

/-- Under well-formedness, `Get` reduces to the bucket-level scan. -/
theorem Get_eq {V : Type} {ht : HashTable V} (hwf : Wf ht) (key : Key) :
    ht.Get key = some (getBucket key (ht.bucketOf key)) := by
  simp [HashTable.Get, getElem?_idx hwf key]

/-- Under well-formedness, `Delete` reduces to the bucket-level removal. -/
theorem Delete_eq {V : Type} {ht : HashTable V} (hwf : Wf ht) (key : Key) :
    ht.Delete key =
      match deleteBucket key (ht.bucketOf key) with
      | none => some (ht, false)
      | some bucket' =>
        some ({ ht with
                  buckets := ht.buckets.set (ht.idx key) bucket'
                  size := ht.size - 1 },
              true) := by
  simp only [HashTable.Delete, getElem?_idx hwf key]

theorem getBucket_putBucket_self {V : Type} (key : Key) (v : V)
    (b : List (KeyValuePair V)) :
    getBucket key (putBucket key v b).1 = some v := by
  induction b with
  | nil => simp [putBucket, getBucket]
  | cons p rest ih =>
    by_cases h : p.key = key
    · simp [putBucket, getBucket, h]
    · simp [putBucket, getBucket, h, ih]

theorem getBucket_putBucket_ne {V : Type} {k' key : Key} (hne : k' ≠ key)
    (v : V) (b : List (KeyValuePair V)) :
    getBucket k' (putBucket key v b).1 = getBucket k' b := by
  have hkk : key ≠ k' := Ne.symm hne
  induction b with
  | nil => simp [putBucket, getBucket, hkk]
  | cons p rest ih =>
    by_cases h : p.key = key
    · simp [putBucket, getBucket, h, hkk]
    · simp [putBucket, getBucket, h, hne, ih]

theorem putBucket_snd {V : Type} (key : Key) (v : V)
    (b : List (KeyValuePair V)) :
    (putBucket key v b).2 = (getBucket key b).isNone := by
  induction b with
  | nil => simp [putBucket, getBucket]
  | cons p rest ih =>
    by_cases h : p.key = key
    · simp [putBucket, getBucket, h]
    · simp [putBucket, getBucket, h, ih]

theorem getBucket_eq_none_iff {V : Type} (key : Key)
    (b : List (KeyValuePair V)) :
    getBucket key b = none ↔ key ∉ bucketKeys b := by
  induction b with
  | nil => simp [getBucket, bucketKeys]
  | cons p rest ih =>
    by_cases h : p.key = key
    · simp [getBucket, bucketKeys, h]
    · simp [getBucket, bucketKeys, h, ih, Ne.symm h]

theorem putBucket_fst_cons_found {V : Type} {q : KeyValuePair V} {key : Key}
    (v : V) (rest : List (KeyValuePair V)) (hq : q.key = key) :
    (putBucket key v (q :: rest)).1 = ⟨q.key, v⟩ :: rest := by
  simp [putBucket, hq]

theorem putBucket_fst_cons_miss {V : Type} {q : KeyValuePair V} {key : Key}
    (v : V) (rest : List (KeyValuePair V)) (hq : ¬ q.key = key) :
    (putBucket key v (q :: rest)).1 = q :: (putBucket key v rest).1 := by
  simp [putBucket, hq]

theorem bucketKeys_putBucket_absent {V : Type} {key : Key} (v : V)
    {b : List (KeyValuePair V)} (h : getBucket key b = none) :
    bucketKeys (putBucket key v b).1 = bucketKeys b ++ [key] := by
  induction b with
  | nil => simp [putBucket, bucketKeys]
  | cons p rest ih =>
    by_cases hp : p.key = key
    · simp [getBucket, hp] at h
    · have h' : getBucket key rest = none := by
        simpa [getBucket, hp] using h
      rw [putBucket_fst_cons_miss v rest hp]
      simp only [bucketKeys, List.map_cons, List.cons_append] at ih h' ⊢
      rw [ih h']

theorem bucketKeys_putBucket_present {V : Type} {key : Key} (v : V)
    {b : List (KeyValuePair V)} (h : getBucket key b ≠ none) :
    bucketKeys (putBucket key v b).1 = bucketKeys b := by
  induction b with
  | nil => simp [getBucket] at h
  | cons p rest ih =>
    by_cases hp : p.key = key
    · rw [putBucket_fst_cons_found v rest hp]
      simp [bucketKeys]
    · have h' : getBucket key rest ≠ none := by
        simpa [getBucket, hp] using h
      rw [putBucket_fst_cons_miss v rest hp]
      simp only [bucketKeys, List.map_cons] at ih ⊢
      rw [ih h']

theorem mem_putBucket {V : Type} {key : Key} {v : V}
    {b : List (KeyValuePair V)} {p : KeyValuePair V}
    (hp : p ∈ (putBucket key v b).1) : p.key = key ∨ p ∈ b := by
  induction b with
  | nil =>
    have : p = ⟨key, v⟩ := by simpa [putBucket] using hp
    left; rw [this]
  | cons q rest ih =>
    by_cases hq : q.key = key
    · rw [putBucket_fst_cons_found v rest hq] at hp
      rcases List.mem_cons.mp hp with h | h
      · left; rw [h]; exact hq
      · right; exact List.mem_cons_of_mem _ h
    · rw [putBucket_fst_cons_miss v rest hq] at hp
      rcases List.mem_cons.mp hp with h | h
      · right; rw [h]; exact List.mem_cons_self _ _
      · rcases ih h with h' | h'
        · left; exact h'
        · right; exact List.mem_cons_of_mem _ h'

theorem length_bucketKeys {V : Type} (b : List (KeyValuePair V)) :
    (bucketKeys b).length = b.length := by
  simp [bucketKeys]

theorem length_putBucket_absent {V : Type} {key : Key} (v : V)
    {b : List (KeyValuePair V)} (h : getBucket key b = none) :
    (putBucket key v b).1.length = b.length + 1 := by
  have := congrArg List.length (bucketKeys_putBucket_absent v h)
  simpa [length_bucketKeys] using this

theorem length_putBucket_present {V : Type} {key : Key} (v : V)
    {b : List (KeyValuePair V)} (h : getBucket key b ≠ none) :
    (putBucket key v b).1.length = b.length := by
  have := congrArg List.length (bucketKeys_putBucket_present v h)
  simpa [length_bucketKeys] using this

theorem deleteBucket_eq_none_iff {V : Type} (key : Key)
    (b : List (KeyValuePair V)) :
    deleteBucket key b = none ↔ getBucket key b = none := by
  induction b with
  | nil => simp [deleteBucket, getBucket]
  | cons p rest ih =>
    by_cases hp : p.key = key
    · simp [deleteBucket, getBucket, hp]
    · simp [deleteBucket, getBucket, hp, ih]

theorem deleteBucket_some_decomp {V : Type} {key : Key}
    {b b' : List (KeyValuePair V)} (h : deleteBucket key b = some b') :
    ∃ pre q post, b = pre ++ q :: post ∧ q.key = key ∧ b' = pre ++ post ∧
      key ∉ bucketKeys pre := by
  induction b generalizing b' with
  | nil => simp [deleteBucket] at h
  | cons p rest ih =>
    by_cases hp : p.key = key
    · refine ⟨[], p, rest, by simp, hp, ?_, by simp [bucketKeys]⟩
      simp only [deleteBucket, hp, if_pos] at h
      simpa using h.symm
    · simp only [deleteBucket, hp, if_neg, ite_false, Option.map_eq_some'] at h
      obtain ⟨c, hc, hb'⟩ := h
      obtain ⟨pre, q, post, hrest, hq, hc', hpre⟩ := ih hc
      refine ⟨p :: pre, q, post, by simp [hrest], hq, by simp [hb'.symm, hc'], ?_⟩
      simp only [bucketKeys, List.map_cons, List.mem_cons]
      push_neg
      refine ⟨fun hk => hp hk.symm, ?_⟩
      simpa [bucketKeys] using hpre

theorem length_deleteBucket {V : Type} {key : Key}
    {b b' : List (KeyValuePair V)} (h : deleteBucket key b = some b') :
    b.length = b'.length + 1 := by
  obtain ⟨pre, q, post, hb, _, hb', _⟩ := deleteBucket_some_decomp h
  subst hb; subst hb'
  simp
  omega

theorem mem_of_mem_deleteBucket {V : Type} {key : Key}
    {b b' : List (KeyValuePair V)} (h : deleteBucket key b = some b')
    {p : KeyValuePair V} (hp : p ∈ b') : p ∈ b := by
  obtain ⟨pre, q, post, hb, _, hb', _⟩ := deleteBucket_some_decomp h
  subst hb; subst hb'
  rcases List.mem_append.mp hp with h' | h'
  · exact List.mem_append.mpr (Or.inl h')
  · exact List.mem_append.mpr (Or.inr (List.mem_cons_of_mem _ h'))

theorem bucketKeys_deleteBucket_nodup {V : Type} {key : Key}
    {b b' : List (KeyValuePair V)} (h : deleteBucket key b = some b')
    (hnd : (bucketKeys b).Nodup) : (bucketKeys b').Nodup := by
  obtain ⟨pre, q, post, hb, _, hb', _⟩ := deleteBucket_some_decomp h
  subst hb; subst hb'
  simp only [bucketKeys, List.map_append, List.map_cons] at hnd ⊢
  exact List.Nodup.sublist
    (List.Sublist.append_left (List.sublist_cons_self _ _) _) hnd

theorem getBucket_deleteBucket_self {V : Type} {key : Key}
    {b b' : List (KeyValuePair V)} (h : deleteBucket key b = some b')
    (hnd : (bucketKeys b).Nodup) : getBucket key b' = none := by
  obtain ⟨pre, q, post, hb, hq, hb', hpre⟩ := deleteBucket_some_decomp h
  subst hb; subst hb'
  rw [getBucket_eq_none_iff]
  simp only [bucketKeys, List.map_append, List.map_cons] at hnd
  have hpost : key ∉ post.map (fun p => p.key) := by
    have h2 := (List.nodup_append.mp hnd).2.1
    rw [List.nodup_cons, hq] at h2
    exact h2.1
  simp only [bucketKeys, List.map_append, List.mem_append]
  push_neg
  exact ⟨by simpa [bucketKeys] using hpre, hpost⟩

theorem getBucket_eq_of_mem {V : Type} {b : List (KeyValuePair V)}
    (hnd : (bucketKeys b).Nodup) {p : KeyValuePair V} (hp : p ∈ b) :
    getBucket p.key b = some p.value := by
  induction b with
  | nil => simp at hp
  | cons q rest ih =>
    rcases List.mem_cons.mp hp with h | h
    · subst h
      simp [getBucket]
    · by_cases hq : q.key = p.key
      · exfalso
        have hmem : p.key ∈ bucketKeys rest :=
          List.mem_map.mpr ⟨p, h, rfl⟩
        simp only [bucketKeys, List.map_cons, List.nodup_cons] at hnd
        exact hnd.1 (hq ▸ hmem)
      · have hnd' : (bucketKeys rest).Nodup := by
          simp only [bucketKeys, List.map_cons, List.nodup_cons] at hnd
          exact hnd.2
        simp [getBucket, hq, ih hnd' h]

theorem getD_set_self {α : Type} {L : List α} {j : Nat} (h : j < L.length)
    (x d : α) : (L.set j x).getD j d = x := by
  simp [List.getD_eq_getElem?_getD, List.getElem?_set_self h]

theorem getD_set_ne {α : Type} {L : List α} {i j : Nat} (h : j ≠ i)
    (x d : α) : (L.set j x).getD i d = L.getD i d := by
  simp [List.getD_eq_getElem?_getD, List.getElem?_set_ne h]

theorem sum_map_length_set {α : Type} :
    ∀ (L : List (List α)) (j : Nat), j < L.length → ∀ (b' : List α),
      ((L.set j b').map List.length).sum + (L.getD j []).length =
        (L.map List.length).sum + b'.length := by
  intro L
  induction L with
  | nil => intro j h; simp at h
  | cons a L ih =>
    intro j h b'
    cases j with
    | zero => simp; omega
    | succ j =>
      have h' : j < L.length := by simpa using h
      have := ih j h' b'
      simp only [List.set_cons_succ, List.map_cons, List.sum_cons,
        List.getD_cons_succ]
      omega

theorem getD_map_const_nil {α β : Type} (L : List (List α)) (i : Nat) :
    (L.map (fun _ => ([] : List β))).getD i [] = [] := by
  rw [List.getD_eq_getElem?_getD, List.getElem?_map]
  cases L[i]? <;> simp

theorem New_capacity {V : Type} (c : Int) :
    (New V c).capacity = if c ≤ 0 then 16 else c := rfl

theorem wf_new {V : Type} (c : Int) : Wf (New V c) := by
  constructor
  · rw [New_capacity]
    split <;> omega
  · simp [New]

theorem getD_replicate_nil {α : Type} :
    ∀ (n i : Nat), (List.replicate n ([] : List α)).getD i [] = []
  | 0, i => by simp
  | n + 1, 0 => by rw [List.replicate_succ, List.getD_cons_zero]
  | n + 1, i + 1 => by
    rw [List.replicate_succ, List.getD_cons_succ]
    exact getD_replicate_nil n i

theorem getD_new {V : Type} (c : Int) (i : Nat) :
    (New V c).buckets.getD i [] = [] := by
  show (List.replicate _ ([] : List (KeyValuePair V))).getD i [] = []
  rw [getD_replicate_nil]

theorem inv_new {V : Type} (c : Int) : Inv (New V c) := by
  refine ⟨wf_new c, ?_, ?_, ?_⟩
  · simp [New, HashTable.sumBucketLens, List.map_replicate]
  · intro i p hp
    rw [getD_new] at hp
    simp at hp
  · intro i
    rw [getD_new]
    simp [bucketKeys]

theorem put_frame {V : Type} {st st' : HashTable V} {k : Key} {v : V} {b : Bool}
    (hwf : Wf st) (h : st.Put k v = some (st', b)) :
    st'.capacity = st.capacity ∧ st'.buckets.length = st.buckets.length := by
  have heq := (Put_eq hwf k v).symm.trans h
  injection heq with heq
  injection heq with heq1 heq2
  subst heq1
  exact ⟨rfl, by simp⟩

theorem delete_frame {V : Type} {st st' : HashTable V} {k : Key} {b : Bool}
    (hwf : Wf st) (h : st.Delete k = some (st', b)) :
    st'.capacity = st.capacity ∧ st'.buckets.length = st.buckets.length := by
  have heq := (Delete_eq hwf k).symm.trans h
  cases hdel : deleteBucket k (st.bucketOf k) with
  | none =>
    rw [hdel] at heq
    injection heq with heq
    injection heq with heq1 heq2
    subst heq1
    exact ⟨rfl, rfl⟩
  | some b' =>
    rw [hdel] at heq
    injection heq with heq
    injection heq with heq1 heq2
    subst heq1
    exact ⟨rfl, by simp⟩

theorem clear_frame {V : Type} (st : HashTable V) :
    st.Clear.capacity = st.capacity ∧
      st.Clear.buckets.length = st.buckets.length := by
  exact ⟨rfl, by simp [HashTable.Clear]⟩

theorem inv_put {V : Type} {st st' : HashTable V} {k : Key} {v : V} {b : Bool}
    (hinv : Inv st) (h : st.Put k v = some (st', b)) : Inv st' := by
  obtain ⟨hwf, hsize, hplace, hnd⟩ := hinv
  have hlt := idx_lt_length hwf k
  have heq := (Put_eq hwf k v).symm.trans h
  injection heq with heq
  injection heq with heq1 heq2
  subst heq1
  subst heq2
  refine ⟨⟨hwf.1, by simpa using hwf.2⟩, ?_, ?_, ?_⟩
  · -- size field tracks the structural entry count
    have hsum := sum_map_length_set st.buckets (st.idx k) hlt
      (putBucket k v (st.bucketOf k)).1
    rw [putBucket_snd]
    cases habs : getBucket k (st.bucketOf k) with
    | none =>
      have hlen := length_putBucket_absent v habs
      show st.size + 1 = _
      have : ((st.buckets.set (st.idx k)
          (putBucket k v (st.bucketOf k)).1).map List.length).sum =
          (st.buckets.map List.length).sum + 1 := by
        have hb : st.buckets.getD (st.idx k) [] = st.bucketOf k := rfl
        rw [hb, hlen] at hsum
        omega
      rw [hsize]
      show ((st.sumBucketLens : Int) + 1 : Int) = _
      simp only [HashTable.sumBucketLens] at *
      rw [this]
      push_cast
      ring
    | some w =>
      have hlen := length_putBucket_present v
        (by rw [habs]; exact fun hx => Option.noConfusion hx)
      show st.size = _
      have : ((st.buckets.set (st.idx k)
          (putBucket k v (st.bucketOf k)).1).map List.length).sum =
          (st.buckets.map List.length).sum := by
        have hb : st.buckets.getD (st.idx k) [] = st.bucketOf k := rfl
        rw [hb, hlen] at hsum
        omega
      rw [hsize]
      simp only [HashTable.sumBucketLens] at *
      rw [this]
  · -- every pair still lives in the bucket its key hashes to
    intro i p hp
    by_cases hij : st.idx k = i
    · subst hij
      rw [getD_set_self hlt] at hp
      rcases mem_putBucket hp with hk | hk
      · show st.idx p.key = st.idx k
        rw [hk]
      · exact hplace (st.idx k) p hk
    · rw [getD_set_ne hij] at hp
      exact hplace i p hp
  · -- per-bucket keys stay duplicate-free
    intro i
    by_cases hij : st.idx k = i
    · subst hij
      rw [getD_set_self hlt]
      cases habs : getBucket k (st.bucketOf k) with
      | none =>
        rw [bucketKeys_putBucket_absent v habs]
        have hk : k ∉ bucketKeys (st.bucketOf k) :=
          (getBucket_eq_none_iff k _).mp habs
        refine List.Nodup.append (hnd (st.idx k)) (List.nodup_singleton _) ?_
        intro a ha hak
        rw [List.mem_singleton] at hak
        exact hk (hak ▸ ha)
      | some w =>
        rw [bucketKeys_putBucket_present v
          (by rw [habs]; exact fun hx => Option.noConfusion hx)]
        exact hnd (st.idx k)
    · rw [getD_set_ne hij]
      exact hnd i

theorem inv_delete {V : Type} {st st' : HashTable V} {k : Key} {b : Bool}
    (hinv : Inv st) (h : st.Delete k = some (st', b)) : Inv st' := by
  obtain ⟨hwf, hsize, hplace, hnd⟩ := hinv
  have hlt := idx_lt_length hwf k
  have heq := (Delete_eq hwf k).symm.trans h
  cases hdel : deleteBucket k (st.bucketOf k) with
  | none =>
    rw [hdel] at heq
    injection heq with heq
    injection heq with heq1 heq2
    subst heq1
    exact ⟨hwf, hsize, hplace, hnd⟩
  | some b' =>
    rw [hdel] at heq
    injection heq with heq
    injection heq with heq1 heq2
    subst heq1
    refine ⟨⟨hwf.1, by simpa using hwf.2⟩, ?_, ?_, ?_⟩
    · have hsum := sum_map_length_set st.buckets (st.idx k) hlt b'
      have hlen := length_deleteBucket hdel
      have hb : st.buckets.getD (st.idx k) [] = st.bucketOf k := rfl
      rw [hb] at hsum
      show st.size - 1 = _
      have hpos : 0 < (st.buckets.map List.length).sum := by omega
      have : ((st.buckets.set (st.idx k) b').map List.length).sum + 1 =
          (st.buckets.map List.length).sum := by omega
      rw [hsize]
      simp only [HashTable.sumBucketLens] at *
      omega
    · intro i p hp
      by_cases hij : st.idx k = i
      · subst hij
        rw [getD_set_self hlt] at hp
        exact hplace (st.idx k) p (mem_of_mem_deleteBucket hdel hp)
      · rw [getD_set_ne hij] at hp
        exact hplace i p hp
    · intro i
      by_cases hij : st.idx k = i
      · subst hij
        rw [getD_set_self hlt]
        exact bucketKeys_deleteBucket_nodup hdel (hnd (st.idx k))
      · rw [getD_set_ne hij]
        exact hnd i

theorem inv_clear {V : Type} {st : HashTable V} (hinv : Inv st) :
    Inv st.Clear := by
  obtain ⟨hwf, _, _, _⟩ := hinv
  refine ⟨⟨hwf.1, by simpa [HashTable.Clear] using hwf.2⟩, ?_, ?_, ?_⟩
  · show (0 : Int) = _
    simp [HashTable.Clear, HashTable.sumBucketLens, List.map_map,
      Function.comp]
  · intro i p hp
    rw [show st.Clear.buckets = st.buckets.map (fun _ => []) from rfl,
      getD_map_const_nil] at hp
    simp at hp
  · intro i
    rw [show st.Clear.buckets = st.buckets.map (fun _ => []) from rfl,
      getD_map_const_nil]
    simp [bucketKeys]

theorem inv_of_reachable {V : Type} {st : HashTable V}
    (hr : Reachable st) : Inv st := by
  induction hr with
  | new c => exact inv_new c
  | put hst hput ih => exact inv_put ih hput
  | del hst hdel ih => exact inv_delete ih hdel
  | clear hst ih => exact inv_clear ih

theorem wf_put {V : Type} {st st' : HashTable V} {k : Key} {v : V} {b : Bool}
    (hwf : Wf st) (h : st.Put k v = some (st', b)) : Wf st' := by
  obtain ⟨hc, hl⟩ := put_frame hwf h
  exact ⟨hc ▸ hwf.1, by rw [hl, hc]; exact hwf.2⟩

theorem put_buckets {V : Type} {st st' : HashTable V} {k : Key} {v : V}
    {b : Bool} (hwf : Wf st) (h : st.Put k v = some (st', b)) :
    st'.buckets = st.buckets.set (st.idx k)
      (putBucket k v (st.bucketOf k)).1 := by
  have heq := (Put_eq hwf k v).symm.trans h
  injection heq with heq
  injection heq with heq1 heq2
  rw [← heq1]

theorem get_put {V : Type} {st st' : HashTable V} {k : Key} {v : V} {b : Bool}
    (hwf : Wf st) (h : st.Put k v = some (st', b)) (k' : Key) :
    st'.Get k' = if k' = k then some (some v) else st.Get k' := by
  have hlt := idx_lt_length hwf k
  have hwf' : Wf st' := wf_put hwf h
  have hcap : st'.capacity = st.capacity := (put_frame hwf h).1
  have hidx : st'.idx k' = st.idx k' := by
    simp [HashTable.idx, HashTable.hash, hcap]
  have hbof : st'.bucketOf k' =
      (st.buckets.set (st.idx k) (putBucket k v (st.bucketOf k)).1).getD
        (st.idx k') [] := by
    show st'.buckets.getD (st'.idx k') [] = _
    rw [put_buckets hwf h, hidx]
  rw [Get_eq hwf', Get_eq hwf, hbof]
  by_cases hk : k' = k
  · subst hk
    rw [getD_set_self hlt, getBucket_putBucket_self, if_pos rfl]
  · rw [if_neg hk]
    by_cases hij : st.idx k = st.idx k'
    · have e1 : (st.buckets.set (st.idx k)
          (putBucket k v (st.bucketOf k)).1).getD (st.idx k') [] =
          (putBucket k v (st.bucketOf k)).1 := by
        rw [← hij]
        exact getD_set_self hlt _ _
      have e2 : st.bucketOf k = st.bucketOf k' := by
        show st.buckets.getD (st.idx k) [] = st.buckets.getD (st.idx k') []
        rw [hij]
      rw [e1, getBucket_putBucket_ne hk, e2]
    · rw [getD_set_ne hij]
      rfl

theorem get_new {V : Type} (c : Int) (k : Key) :
    (New V c).Get k = some none := by
  rw [Get_eq (wf_new c)]
  show some (getBucket k ((New V c).buckets.getD _ [])) = some none
  rw [getD_new]
  rfl

/-- C1: Put/Get round trip — on every reachable store, `Put(k, v)` succeeds
and a subsequent `Get(k)` returns `(v, true)` (embedded as `some (some v)`). -/
theorem put_get_roundtrip {V : Type} (st : HashTable V) (k : Key) (v : V)
    (hr : Reachable st) :
    ∃ st' b, st.Put k v = some (st', b) ∧ st'.Get k = some (some v) := by
  have hwf := (inv_of_reachable hr).1
  refine ⟨_, _, Put_eq hwf k v, ?_⟩
  rw [get_put hwf (Put_eq hwf k v) k]
  simp

/-- Witness for C1 at the concrete store `New Nat 4`, key "a", value 7. -/
theorem put_get_roundtrip_witness :
    ∃ st' b, (New Nat 4).Put [97] 7 = some (st', b) ∧
      st'.Get [97] = some (some 7) :=
  put_get_roundtrip (New Nat 4) [97] 7 (Reachable.new 4)

/-- C2: update semantics — after `Put(k, v1)`, a second `Put(k, v2)` returns
`false`, leaves `Size()` unchanged, and `Get(k)` then returns `(v2, true)`. -/
theorem put_update_semantics {V : Type} (st : HashTable V) (k : Key)
    (v1 v2 : V) (hr : Reachable st) :
    ∃ st1 b1 st2, st.Put k v1 = some (st1, b1) ∧
      st1.Put k v2 = some (st2, false) ∧
      st2.Size = st1.Size ∧ st2.Get k = some (some v2) := by
  have hinv := inv_of_reachable hr
  have hwf := hinv.1
  obtain ⟨st1, b1, h1⟩ : ∃ st1 b1, st.Put k v1 = some (st1, b1) :=
    ⟨_, _, Put_eq hwf k v1⟩
  have hwf1 : Wf st1 := wf_put hwf h1
  have hget1 : st1.Get k = some (some v1) := by
    rw [get_put hwf h1 k]
    simp
  have hbucket : getBucket k (st1.bucketOf k) = some v1 := by
    have hg := Get_eq hwf1 k
    rw [hg] at hget1
    exact Option.some.inj hget1
  have hsnd : (putBucket k v2 (st1.bucketOf k)).2 = false := by
    rw [putBucket_snd, hbucket]
    rfl
  have h2 := Put_eq hwf1 k v2
  rw [hsnd] at h2
  simp only [Bool.false_eq_true, if_false] at h2
  refine ⟨st1, b1, _, h1, h2, rfl, ?_⟩
  rw [get_put hwf1 h2 k]
  simp

/-- Witness for C2 at the concrete store `New Nat 4`, key "a". -/
theorem put_update_semantics_witness :
    ∃ st1 b1 st2, (New Nat 4).Put [97] 1 = some (st1, b1) ∧
      st1.Put [97] 2 = some (st2, false) ∧
      st2.Size = st1.Size ∧ st2.Get [97] = some (some 2) :=
  put_update_semantics (New Nat 4) [97] 1 2 (Reachable.new 4)

/-- C6: hashing safety and determinism — on every well-formed store the hash
is a bucket index in `[0, capacity)`, it depends only on the store's capacity
(so the same key on the same store always yields the same index), and the
bucket accesses inside `Put`, `Get` and `Delete` are in bounds, so none of
them fails. -/
theorem hash_safety {V : Type} (st : HashTable V) (k : Key) (v : V)
    (hwf : Wf st) :
    0 ≤ st.hash k ∧ st.hash k < st.capacity ∧
      st.idx k < st.buckets.length ∧
      (∀ st2 : HashTable V, st2.capacity = st.capacity →
        st2.hash k = st.hash k) ∧
      (st.Put k v).isSome ∧ (st.Get k).isSome ∧ (st.Delete k).isSome := by
  refine ⟨hash_nonneg st k, hash_lt st k hwf.1, idx_lt_length hwf k,
    ?_, ?_, ?_, ?_⟩
  · intro st2 hc
    simp [HashTable.hash, hc]
  · rw [Put_eq hwf k v]
    rfl
  · rw [Get_eq hwf k]
    rfl
  · rw [Delete_eq hwf k]
    cases deleteBucket k (st.bucketOf k) <;> rfl

/-- Witness for C6 at the concrete store `New Nat 3` and the empty key. -/
theorem hash_safety_witness :
    0 ≤ (New Nat 3).hash [] ∧ (New Nat 3).hash [] < (New Nat 3).capacity ∧
      (New Nat 3).idx [] < (New Nat 3).buckets.length ∧
      (∀ st2 : HashTable Nat, st2.capacity = (New Nat 3).capacity →
        st2.hash [] = (New Nat 3).hash []) ∧
      ((New Nat 3).Put [] 0).isSome ∧ ((New Nat 3).Get []).isSome ∧
      ((New Nat 3).Delete []).isSome :=
  hash_safety (New Nat 3) [] 0 (wf_new 3)

/-- C7: construction leniency — `New` never fails; a non-positive request
yields capacity 16, a positive one the requested capacity; the store has
exactly `capacity` buckets, all empty, and size 0. -/
theorem new_construction {V : Type} (c : Int) :
    ((New V c).capacity = if c ≤ 0 then 16 else c) ∧
      0 < (New V c).capacity ∧
      (New V c).buckets.length = (New V c).capacity.toNat ∧
      (∀ b ∈ (New V c).buckets, b = []) ∧
      (New V c).Size = 0 := by
  refine ⟨rfl, (wf_new c).1, (wf_new c).2, ?_, rfl⟩
  intro b hb
  exact List.eq_of_mem_replicate hb

/-- Witness for C7 at the concrete negative request `-5` (and value type
`Nat`): capacity defaults to 16 with 16 empty buckets. -/
theorem new_construction_witness :
    (New Nat (-5)).capacity = 16 ∧
      (New Nat (-5)).buckets.length = 16 ∧ (New Nat (-5)).Size = 0 := by
  have h := new_construction (V := Nat) (-5)
  refine ⟨?_, ?_, h.2.2.2.2⟩
  · rw [h.1]
    rfl
  · rw [h.2.2.1, h.1]
    rfl

/-- C8: fixed bucket array frame — `Put`, `Delete` and `Clear` preserve the
`capacity` field and the number of buckets.  The remaining operations
(`Get`, `Contains`, `Size`, `IsEmpty`, `Keys`, `Values`, `GetPairs`,
`LoadFactor`, `BucketDistribution`, `String`) are queries: in the embedding
they are pure functions that return no new state, mirroring that the Go code
never assigns to `ht.buckets` or `ht.capacity` in them. -/
theorem fixed_bucket_frame {V : Type} (st : HashTable V) (k : Key) (v : V)
    (hwf : Wf st) :
    (∀ st' b, st.Put k v = some (st', b) →
        st'.capacity = st.capacity ∧
        st'.buckets.length = st.buckets.length) ∧
      (∀ st' b, st.Delete k = some (st', b) →
        st'.capacity = st.capacity ∧
        st'.buckets.length = st.buckets.length) ∧
      st.Clear.capacity = st.capacity ∧
      st.Clear.buckets.length = st.buckets.length := by
  exact ⟨fun st' b h => put_frame hwf h, fun st' b h => delete_frame hwf h,
    clear_frame st⟩

/-- Witness for C8 at the concrete store `New Nat 4`: the `Put` and `Delete`
branches are exercised on their actual results. -/
theorem fixed_bucket_frame_witness :
    ∃ st' b st'' b',
      (New Nat 4).Put [97] 7 = some (st', b) ∧
      st'.capacity = (New Nat 4).capacity ∧
      st'.buckets.length = (New Nat 4).buckets.length ∧
      (New Nat 4).Delete [98] = some (st'', b') ∧
      st''.capacity = (New Nat 4).capacity ∧
      st''.buckets.length = (New Nat 4).buckets.length ∧
      (New Nat 4).Clear.capacity = (New Nat 4).capacity ∧
      (New Nat 4).Clear.buckets.length = (New Nat 4).buckets.length := by
  have h := fixed_bucket_frame (New Nat 4) [97] 7 (wf_new 4)
  have h2 := fixed_bucket_frame (New Nat 4) [98] 7 (wf_new 4)
  have hput := Put_eq (wf_new (V := Nat) 4) [97] (7 : Nat)
  have hdel := Delete_eq (wf_new (V := Nat) 4) [98]
  cases hd : deleteBucket [98] ((New Nat 4).bucketOf [98]) with
  | none =>
    rw [hd] at hdel
    exact ⟨_, _, _, _, hput, (h.1 _ _ hput).1, (h.1 _ _ hput).2,
      hdel, (h2.2.1 _ _ hdel).1, (h2.2.1 _ _ hdel).2, h.2.2.1, h.2.2.2⟩
  | some b' =>
    rw [hd] at hdel
    exact ⟨_, _, _, _, hput, (h.1 _ _ hput).1, (h.1 _ _ hput).2,
      hdel, (h2.2.1 _ _ hdel).1, (h2.2.1 _ _ hdel).2, h.2.2.1, h.2.2.2⟩

theorem getD_eq_getElem_of_lt {α : Type} {L : List α} {i : Nat}
    (h : i < L.length) (d : α) : L.getD i d = L[i] := by
  rw [List.getD_eq_getElem?_getD, List.getElem?_eq_getElem h]
  rfl

theorem keys_length {V : Type} (st : HashTable V) :
    st.Keys.length = st.sumBucketLens := by
  simp only [HashTable.Keys, HashTable.sumBucketLens, List.length_flatten,
    List.map_map]
  have h : (List.length ∘ fun bucket : List (KeyValuePair V) =>
      bucket.map (fun p => p.key)) = (List.length : List (KeyValuePair V) → Nat) :=
    funext fun b => by simp
  rw [h]

/-- C4: size consistency — after every operation (i.e. on every reachable
store), `Size()` equals the sum of the bucket lengths and equals
`len(Keys())`. -/
theorem size_consistency {V : Type} (st : HashTable V) (hr : Reachable st) :
    st.Size = (st.sumBucketLens : Int) ∧
      st.Size = (st.Keys.length : Int) := by
  have hinv := inv_of_reachable hr
  refine ⟨hinv.2.1, ?_⟩
  show st.size = (st.Keys.length : Int)
  rw [hinv.2.1, keys_length]

/-- Witness for C4 on the store reached by one `Put` from `New Nat 4`. -/
theorem size_consistency_witness :
    ∃ st1 b1, (New Nat 4).Put [97] 7 = some (st1, b1) ∧
      st1.Size = (st1.sumBucketLens : Int) ∧
      st1.Size = (st1.Keys.length : Int) := by
  have hput := Put_eq (wf_new (V := Nat) 4) [97] (7 : Nat)
  exact ⟨_, _, hput,
    size_consistency _ (Reachable.put (Reachable.new 4) hput)⟩

/-- C5: key uniqueness — on every reachable store each key appears in at most
one entry across all buckets, so `Keys()` has no duplicates. -/
theorem keys_no_duplicates {V : Type} (st : HashTable V)
    (hr : Reachable st) : st.Keys.Nodup := by
  obtain ⟨hwf, _, hplace, hnd⟩ := inv_of_reachable hr
  show ((st.buckets.map bucketKeys).flatten).Nodup
  rw [List.nodup_flatten]
  constructor
  · intro l hl
    obtain ⟨bkt, hbkt, rfl⟩ := List.mem_map.mp hl
    obtain ⟨i, hi, rfl⟩ := List.getElem_of_mem hbkt
    have := hnd i
    rwa [getD_eq_getElem_of_lt hi] at this
  · rw [List.pairwise_iff_getElem]
    intro i j hi hj hij
    rw [List.getElem_map, List.getElem_map]
    intro a ha hb
    have hi' : i < st.buckets.length := by simpa using hi
    have hj' : j < st.buckets.length := by simpa using hj
    obtain ⟨p, hp, rfl⟩ := List.mem_map.mp ha
    obtain ⟨q, hq, hpq⟩ := List.mem_map.mp hb
    have h1 : st.idx p.key = i := by
      apply hplace i p
      rwa [getD_eq_getElem_of_lt hi']
    have h2 : st.idx q.key = j := by
      apply hplace j q
      rwa [getD_eq_getElem_of_lt hj']
    rw [← hpq] at h1
    omega

/-- Witness for C5 on the store reached by two `Put`s from `New Nat 4`. -/
theorem keys_no_duplicates_witness :
    ∃ st1 b1 st2 b2, (New Nat 4).Put [97] 7 = some (st1, b1) ∧
      st1.Put [98] 8 = some (st2, b2) ∧ st2.Keys.Nodup := by
  have hput := Put_eq (wf_new (V := Nat) 4) [97] (7 : Nat)
  have hr1 : Reachable _ := Reachable.put (Reachable.new 4) hput
  have hput2 := Put_eq (inv_of_reachable hr1).1 [98] (8 : Nat)
  exact ⟨_, _, _, _, hput, hput2,
    keys_no_duplicates _ (Reachable.put hr1 hput2)⟩

/-- C3: delete correctness and atomicity — after `Put(k, v)`, `Delete(k)`
returns `true`, decrements `Size()` by one, removes exactly the matching
entry from its bucket (keeping the other entries in relative order), and a
subsequent `Get(k)` misses; deleting an absent key returns `false` and
leaves the whole store unchanged. -/
theorem delete_correctness {V : Type} (st : HashTable V) (hr : Reachable st) :
    (∀ (k : Key) (v : V) (st1 : HashTable V) (b1 : Bool),
        st.Put k v = some (st1, b1) →
        ∃ st2 pre q post,
          st1.Delete k = some (st2, true) ∧
          st2.Size = st1.Size - 1 ∧
          st2.Get k = some none ∧
          st1.bucketOf k = pre ++ q :: post ∧ q.key = k ∧
          st2.buckets = st1.buckets.set (st1.idx k) (pre ++ post)) ∧
      (∀ k : Key, st.Contains k = some false →
        st.Delete k = some (st, false)) := by
  have hinv := inv_of_reachable hr
  have hwf := hinv.1
  constructor
  · intro k v st1 b1 hput
    have hinv1 : Inv st1 := inv_put hinv hput
    have hwf1 := hinv1.1
    have hnd1 : (bucketKeys (st1.bucketOf k)).Nodup := hinv1.2.2.2 (st1.idx k)
    have hget1 : st1.Get k = some (some v) := by
      rw [get_put hwf hput k]
      simp
    have hbucket : getBucket k (st1.bucketOf k) = some v := by
      have hg := Get_eq hwf1 k
      rw [hg] at hget1
      exact Option.some.inj hget1
    have hdel : deleteBucket k (st1.bucketOf k) ≠ none := by
      rw [Ne, deleteBucket_eq_none_iff, hbucket]
      exact fun hx => Option.noConfusion hx
    cases hd : deleteBucket k (st1.bucketOf k) with
    | none => exact absurd hd hdel
    | some b' =>
      obtain ⟨pre, q, post, hdecomp, hqk, hb', _⟩ :=
        deleteBucket_some_decomp hd
      have hD := Delete_eq hwf1 k
      rw [hd] at hD
      have hlt1 := idx_lt_length hwf1 k
      refine ⟨_, pre, q, post, hD, rfl, ?_, hdecomp, hqk, by rw [← hb']⟩
      have hwf2 : Wf ({ buckets := st1.buckets.set (st1.idx k) b',
                        size := st1.size - 1,
                        capacity := st1.capacity } : HashTable V) :=
        ⟨hwf1.1, by simpa using hwf1.2⟩
      rw [Get_eq hwf2 k]
      have hbof2 : ((st1.buckets.set (st1.idx k) b').getD
          (st1.idx k) []) = b' := getD_set_self hlt1 _ _
      show some (getBucket k ((st1.buckets.set (st1.idx k) b').getD
        (st1.idx k) [])) = some none
      rw [hbof2, getBucket_deleteBucket_self hd hnd1]
  · intro k hcont
    have hget : getBucket k (st.bucketOf k) = none := by
      rw [HashTable.Contains, Get_eq hwf k] at hcont
      cases hg : getBucket k (st.bucketOf k) with
      | none => rfl
      | some w =>
        rw [hg] at hcont
        simp at hcont
    have hd : deleteBucket k (st.bucketOf k) = none :=
      (deleteBucket_eq_none_iff k _).mpr hget
    have hD := Delete_eq hwf k
    rwa [hd] at hD

/-- Witness for C3: put "a" into `New Nat 4`, delete it again; and delete the
absent key "b". -/
theorem delete_correctness_witness :
    ∃ st1 b1 st2,
      (New Nat 4).Put [97] 7 = some (st1, b1) ∧
      st1.Delete [97] = some (st2, true) ∧
      st2.Size = st1.Size - 1 ∧
      st2.Get [97] = some none ∧
      (New Nat 4).Delete [98] = some (New Nat 4, false) := by
  have h := delete_correctness (New Nat 4) (Reachable.new 4)
  have hput := Put_eq (wf_new (V := Nat) 4) [97] (7 : Nat)
  obtain ⟨st2, pre, q, post, hd, hs, hg, _, _, _⟩ := h.1 [97] 7 _ _ hput
  exact ⟨_, _, st2, hput, hd, hs, hg, h.2 [98] (by decide)⟩

theorem keys_eq_map_getPairs {V : Type} (st : HashTable V) :
    st.Keys = st.GetPairs.map (fun p => p.key) :=
  (List.map_flatten _ _).symm

theorem values_eq_map_getPairs {V : Type} (st : HashTable V) :
    st.Values = st.GetPairs.map (fun p => p.value) :=
  (List.map_flatten _ _).symm

theorem get_mem_pairs {V : Type} {st : HashTable V} (hinv : Inv st)
    {p : KeyValuePair V} (hp : p ∈ st.GetPairs) :
    st.Get p.key = some (some p.value) := by
  obtain ⟨bkt, hb, hpb⟩ := List.mem_flatten.mp hp
  obtain ⟨i, hi, rfl⟩ := List.getElem_of_mem hb
  have hplace : st.idx p.key = i := by
    apply hinv.2.2.1 i p
    rwa [getD_eq_getElem_of_lt hi]
  have hnd := hinv.2.2.2 i
  rw [getD_eq_getElem_of_lt hi] at hnd
  rw [Get_eq hinv.1 p.key]
  have hbof : st.bucketOf p.key = st.buckets[i] := by
    show st.buckets.getD (st.idx p.key) [] = _
    rw [hplace, getD_eq_getElem_of_lt hi]
  rw [hbof, getBucket_eq_of_mem hnd hpb]

/-- C10: Keys/Values alignment — on every reachable store, `Keys()` and
`Values()` have the same length, equal to `Size()`, and traverse the buckets
in the same order, so `Get(Keys()[i])` returns `(Values()[i], true)` for
every index. -/
theorem keys_values_aligned {V : Type} (st : HashTable V)
    (hr : Reachable st) :
    st.Keys.length = st.Values.length ∧
      st.Size = (st.Keys.length : Int) ∧
      ∀ (i : Nat) (hk : i < st.Keys.length) (hv : i < st.Values.length),
        st.Get (st.Keys.get ⟨i, hk⟩) =
          some (some (st.Values.get ⟨i, hv⟩)) := by
  have hinv := inv_of_reachable hr
  have hklen : st.Keys.length = st.GetPairs.length := by
    rw [keys_eq_map_getPairs, List.length_map]
  have hvlen : st.Values.length = st.GetPairs.length := by
    rw [values_eq_map_getPairs, List.length_map]
  refine ⟨hklen.trans hvlen.symm, ?_, ?_⟩
  · show st.size = (st.Keys.length : Int)
    rw [hinv.2.1, keys_length]
  · intro i hk hv
    have hik : i < st.GetPairs.length := hklen ▸ hk
    have hkey : st.Keys.get ⟨i, hk⟩ = (st.GetPairs[i]).key := by
      simp only [List.get_eq_getElem]
      rw [List.getElem_of_eq (keys_eq_map_getPairs st) hk, List.getElem_map]
    have hval : st.Values.get ⟨i, hv⟩ = (st.GetPairs[i]).value := by
      simp only [List.get_eq_getElem]
      rw [List.getElem_of_eq (values_eq_map_getPairs st) hv, List.getElem_map]
    rw [hkey, hval]
    exact get_mem_pairs hinv (List.getElem_mem hik)

/-- Witness for C10 on the store reached by one `Put` from `New Nat 4`. -/
theorem keys_values_aligned_witness :
    ∃ st1 b1, (New Nat 4).Put [97] 7 = some (st1, b1) ∧
      st1.Keys.length = st1.Values.length ∧
      st1.Size = (st1.Keys.length : Int) := by
  have hput := Put_eq (wf_new (V := Nat) 4) [97] (7 : Nat)
  have h := keys_values_aligned _ (Reachable.put (Reachable.new 4) hput)
  exact ⟨_, _, hput, h.1, h.2.1⟩

/-- A caller performing a sequence of `Put` calls, folded left to right.
`none` propagates the (never actually occurring) indexing panic. -/
def putList {V : Type} (st : HashTable V) :
    List (Key × V) → Option (HashTable V)
  | [] => some st
  | (k, v) :: rest =>
    match st.Put k v with
    | none => none
    | some (st', _) => putList st' rest

theorem put_fresh {V : Type} {st : HashTable V} {k : Key} {v : V}
    (hinv : Inv st) (habs : st.Get k = some none) :
    ∃ st', st.Put k v = some (st', true) ∧ st'.size = st.size + 1 ∧
      st'.capacity = st.capacity ∧ Inv st' ∧
      ∀ k', k' ≠ k → st'.Get k' = st.Get k' := by
  have hwf := hinv.1
  have hbucket : getBucket k (st.bucketOf k) = none := by
    have hg := Get_eq hwf k
    rw [hg] at habs
    exact Option.some.inj habs
  have hsnd : (putBucket k v (st.bucketOf k)).2 = true := by
    rw [putBucket_snd, hbucket]
    rfl
  have h := Put_eq hwf k v
  rw [hsnd] at h
  simp only [if_true] at h
  refine ⟨_, h, rfl, rfl, inv_put hinv h, ?_⟩
  intro k' hk'
  rw [get_put hwf h k', if_neg hk']

theorem putList_fresh {V : Type} :
    ∀ (kvs : List (Key × V)) (st : HashTable V), Inv st →
      (kvs.map Prod.fst).Nodup →
      (∀ kv ∈ kvs, st.Get kv.1 = some none) →
      ∃ st', putList st kvs = some st' ∧ Inv st' ∧
        st'.capacity = st.capacity ∧
        st'.size = st.size + (kvs.length : Int) ∧
        (∀ k', k' ∉ kvs.map Prod.fst → st'.Get k' = st.Get k') := by
  intro kvs
  induction kvs with
  | nil =>
    intro st hinv _ _
    exact ⟨st, rfl, hinv, rfl, by simp, fun _ _ => rfl⟩
  | cons kv rest ih =>
    intro st hinv hnd habs
    obtain ⟨k, v⟩ := kv
    have habs0 : st.Get k = some none := habs (k, v) (List.mem_cons_self _ _)
    obtain ⟨st1, hput, hsize, hcap, hinv1, hpres⟩ := put_fresh hinv habs0
    have hnd' : (rest.map Prod.fst).Nodup := (List.nodup_cons.mp hnd).2
    have hknotin : k ∉ rest.map Prod.fst := (List.nodup_cons.mp hnd).1
    have habs' : ∀ kv' ∈ rest, st1.Get kv'.1 = some none := by
      intro kv' hkv'
      have hne : kv'.1 ≠ k := fun he =>
        hknotin (he ▸ List.mem_map.mpr ⟨kv', hkv', rfl⟩)
      rw [hpres kv'.1 hne]
      exact habs kv' (List.mem_cons_of_mem _ hkv')
    obtain ⟨st', hrec, hinv', hcap', hsize', hpres'⟩ := ih st1 hinv1 hnd' habs'
    refine ⟨st', ?_, hinv', hcap'.trans hcap, ?_, ?_⟩
    · show putList st ((k, v) :: rest) = some st'
      simp only [putList]
      rw [hput]
      exact hrec
    · rw [hsize', hsize]
      simp only [List.length_cons]
      push_cast
      ring
    · intro k' hk'
      simp only [List.map_cons, List.mem_cons] at hk'
      push_neg at hk'
      rw [hpres' k' hk'.2, hpres k' hk'.1]

/-- C9: load factor — `LoadFactor()` is 0 when `capacity` is 0 and otherwise
`size / capacity`; in particular on a capacity-10 store, inserting 5 distinct
keys yields load factor `0.5` and 5 further distinct keys yield `1.0`.
(`float64` division is modelled exactly in `ℚ`; `5/10 = 0.5` and `10/10 = 1`
are exact in `float64` as well.) -/
theorem load_factor_spec :
    (∀ (V : Type) (st : HashTable V), st.capacity = 0 →
        st.LoadFactor = 0) ∧
      (∀ (V : Type) (st : HashTable V), st.capacity ≠ 0 →
        st.LoadFactor * (st.capacity : ℚ) = (st.Size : ℚ)) ∧
      (∀ (V : Type) (kvs5 : List (Key × V)), (kvs5.map Prod.fst).Nodup →
        kvs5.length = 5 →
        ∃ st5, putList (New V 10) kvs5 = some st5 ∧
          st5.LoadFactor = 1/2 ∧
          ∀ kvs5' : List (Key × V),
            ((kvs5 ++ kvs5').map Prod.fst).Nodup → kvs5'.length = 5 →
            ∃ st10, putList st5 kvs5' = some st10 ∧
              st10.LoadFactor = 1) := by
  refine ⟨?_, ?_, ?_⟩
  · intro V st h
    simp [HashTable.LoadFactor, h]
  · intro V st h
    rw [HashTable.LoadFactor, if_neg h]
    have hc : (st.capacity : ℚ) ≠ 0 := by
      exact_mod_cast h
    rw [div_mul_cancel₀ _ hc]
    rfl
  · intro V kvs5 hnd5 hlen5
    obtain ⟨st5, hputs, hinv5, hcap5, hsize5, hpres5⟩ :=
      putList_fresh kvs5 (New V 10) (inv_new 10) hnd5
        (fun kv _ => get_new 10 kv.1)
    have hcap10 : st5.capacity = 10 := by
      rw [hcap5]
      rfl
    have hsz5 : st5.size = 5 := by
      rw [hsize5, hlen5]
      rfl
    refine ⟨st5, hputs, ?_, ?_⟩
    · rw [HashTable.LoadFactor, if_neg (by rw [hcap10]; norm_num),
        hcap10, hsz5]
      norm_num
    · intro kvs5' hnd10 hlen5'
      rw [List.map_append, List.nodup_append] at hnd10
      have habs' : ∀ kv ∈ kvs5', st5.Get kv.1 = some none := by
        intro kv hkv
        have hnotin : kv.1 ∉ kvs5.map Prod.fst := fun hmem =>
          hnd10.2.2 hmem (List.mem_map.mpr ⟨kv, hkv, rfl⟩)
        rw [hpres5 kv.1 hnotin]
        exact get_new 10 kv.1
      obtain ⟨st10, hputs', _, hcap', hsize', _⟩ :=
        putList_fresh kvs5' st5 hinv5 hnd10.2.1 habs'
      refine ⟨st10, hputs', ?_⟩
      have hc10 : st10.capacity = 10 := hcap'.trans hcap10
      have hs10 : st10.size = 10 := by
        rw [hsize', hsz5, hlen5']
        rfl
      rw [HashTable.LoadFactor, if_neg (by rw [hc10]; norm_num), hc10, hs10]
      norm_num

/-- Witness for C9: a literal capacity-0 store has load factor 0, and the
five concrete keys "0".."4" inserted into `New Nat 10` give load factor 1/2,
with five more ("5".."9") giving 1. -/
theorem load_factor_spec_witness :
    ({ buckets := [], size := 0, capacity := 0 } : HashTable Nat).LoadFactor
        = 0 ∧
      ∃ st5, putList (New Nat 10)
          [([48], 0), ([49], 1), ([50], 2), ([51], 3), ([52], 4)] =
            some st5 ∧
        st5.LoadFactor = 1/2 ∧
        ∃ st10, putList st5
            [([53], 5), ([54], 6), ([55], 7), ([56], 8), ([57], 9)] =
              some st10 ∧
          st10.LoadFactor = 1 := by
  have h := load_factor_spec
  refine ⟨h.1 Nat _ rfl, ?_⟩
  obtain ⟨st5, h1, h2, h3⟩ := h.2.2 Nat
    [([48], 0), ([49], 1), ([50], 2), ([51], 3), ([52], 4)]
    (by decide) (by decide)
  obtain ⟨st10, h4, h5⟩ := h3
    [([53], 5), ([54], 6), ([55], 7), ([56], 8), ([57], 9)]
    (by decide) (by decide)
  exact ⟨st5, h1, h2, st10, h4, h5⟩

end GoDS
